import Mathlib

/-!
Verification of the inventory policy engine of `20250815_ProblemaEstoque.py`.

Shallow embedding conventions:
* Machine floats that carry "not a number" / non-finite sentinels are modelled
  as `Option ℝ` (or `Option ℚ`): `none` stands for a non-finite value (NaN),
  `some x` for a finite float of value `x`.
* The cost-model helpers (`eoq`, `custos_periodicos`, `ajusta_por_moq_multiplo`,
  the baseline safety-stock resolution and the savings formulas) are embedded
  over the real numbers.
* The day-stepped simulator `sim_serrilhado_com_leadtime` is embedded over the
  rationals (every finite float is a rational, and the simulator only uses
  field operations and comparisons), which keeps every run kernel-computable.
  The stream of normal samples produced by `np.random.default_rng(seed)` is
  modelled as a function `draw : ℕ → ℚ` giving the sample consumed on day `t`;
  seeding is modelled by a generator function `gen : ℕ → ℕ → ℚ` mapping a seed
  to such a stream, which is the deterministic-seeding contract of numpy.
-/

/-- Embeds `eoq(D_per, K, h_per)`: `np.nan` (modelled `none`) on the guard
`D_per <= 0 or K < 0 or h_per <= 0`, otherwise `sqrt(2*K*D_per/h_per)`. -/
noncomputable def eoq (D_per K h_per : ℝ) : Option ℝ :=
  if D_per ≤ 0 ∨ K < 0 ∨ h_per ≤ 0 then none
  else some (Real.sqrt (2 * K * D_per / h_per))

/-- The per-period cost objective `K*D/Q + h*(Q/2)` that `eoq` minimizes
(`custos_periodicos` with `SS = 0`). -/
noncomputable def costObjective (D_per K h_per Q : ℝ) : ℝ :=
  K * D_per / Q + h_per * (Q / 2)

/-- NaN-propagating addition on the `Option ℝ` embedding of floats. -/
def nanAdd (a b : Option ℝ) : Option ℝ :=
  match a, b with
  | some x, some y => some (x + y)
  | _, _ => none

/-- Embeds `custos_periodicos(Q, D_per, K, h_per, SS)`: returns the NaN triple
on the guard `Q is None or Q <= 0 or D_per <= 0 or h_per < 0 or K < 0`,
otherwise `(K*D/Q, h*(Q/2 + max(0,SS)), c_ped + c_pos)`. An undefined (NaN)
`Q` is modelled as `none`. -/
noncomputable def custos_periodicos (Q : Option ℝ) (D_per K h_per SS : ℝ) :
    Option ℝ × Option ℝ × Option ℝ :=
  match Q with
  | none => (none, none, none)
  | some q =>
    if q ≤ 0 ∨ D_per ≤ 0 ∨ h_per < 0 ∨ K < 0 then (none, none, none)
    else (some (K * D_per / q), some (h_per * (q / 2 + max 0 SS)),
          some (K * D_per / q + h_per * (q / 2 + max 0 SS)))

/-- Embeds `ajusta_por_moq_multiplo(q, moq, mult)`: NaN (`none`) passes
through; otherwise the minimum-order floor is applied first
(`if moq and moq > 0 and q_adj < moq: q_adj = moq`), then the lot multiple
ceiling (`if mult and mult > 0: q_adj = mult * ceil(q_adj / mult)`). -/
noncomputable def ajusta_por_moq_multiplo (q : Option ℝ) (moq mult : ℝ) : Option ℝ :=
  match q with
  | none => none
  | some x =>
    some (if 0 < mult then mult * ⌈(if 0 < moq ∧ x < moq then moq else x) / mult⌉
          else (if 0 < moq ∧ x < moq then moq else x))

/-- Embeds the baseline reorder-point resolution
(`if r_base_input and r_base_input > 0: SS_base = max(0.0, r_base_input - mu_L);
r_base = r_base_input else: SS_base = SS_base_default; r_base = mu_L + SS_base`).
Returns the pair `(SS_base, r_base)`; a missing `r_base_input` is `none`. -/
noncomputable def SS_base_resolve (r_base_input : Option ℝ) (mu_L SS_base_default : ℝ) : ℝ × ℝ :=
  match r_base_input with
  | some rb =>
    if 0 < rb then (max 0 (rb - mu_L), rb)
    else (SS_base_default, mu_L + SS_base_default)
  | none => (SS_base_default, mu_L + SS_base_default)

/-- Embeds `economia_per = ctot_base - ctot_opt if np.isfinite(ctot_base) and
np.isfinite(ctot_opt) else np.nan`; a non-finite total is `none`. -/
def economia_per (ctot_base ctot_opt : Option ℝ) : Option ℝ :=
  match ctot_base, ctot_opt with
  | some b, some o => some (b - o)
  | _, _ => none

/-- Embeds `economia_pct = (economia_per / ctot_base * 100.0) if
(np.isfinite(ctot_base) and ctot_base > 0) else np.nan`; arithmetic on a NaN
`economia_per` propagates NaN. -/
noncomputable def economia_pct (econ ctot_base : Option ℝ) : Option ℝ :=
  match ctot_base with
  | some b =>
    if 0 < b then
      match econ with
      | some e => some (e / b * 100)
      | none => none
    else none
  | none => none

/-- The two initialization modes of the simulator (`start_mode`). -/
inductive StartMode
  | steady
  | lot
deriving DecidableEq, Repr

/-- The parameters of `sim_serrilhado_com_leadtime(Q, r, d_dia, L, sigma_d_dia,
T, seed, clamp_zero, start_mode)`, with the seed factored out (see
`simSeeded`). -/
structure SimParams where
  Q : ℚ
  r : ℚ
  d_dia : ℚ
  L : ℕ
  sigma_d_dia : ℚ
  T : ℕ
  clamp_zero : Bool
  start_mode : StartMode
deriving DecidableEq, Repr

/-- The simulator state: the mutable locals of the Python loop together with
the recorded outputs (`y_onhand`, `y_pos`, `order_times`, `arrival_times`,
`stockout_days`).  The `x` output of the Python function is just
`[0, 1, ..., T]` and is not recorded. -/
structure SimState where
  on_hand : ℚ
  pending : List (ℕ × ℚ)
  order_times : List ℕ
  arrival_times : List ℕ
  stockout_days : ℕ
  y_onhand : List ℚ
  y_pos : List ℚ
deriving DecidableEq, Repr

/-- The state before the first simulated day: `steady` starts with
`on_hand = r` and one pending order `(L, Q)`; `lot` starts with `on_hand = Q`
and no pending order.  Both record day 0 in the traces with
`y_pos = [on_hand]`. -/
def initState (p : SimParams) : SimState :=
  match p.start_mode with
  | .steady => ⟨p.r, [(p.L, p.Q)], [], [], 0, [p.r], [p.r]⟩
  | .lot => ⟨p.Q, [], [], [], 0, [p.Q], [p.Q]⟩

/-- The demand consumed on day `t`: `d_dia if sigma_d_dia <= 0 else
max(0.0, rng.normal(d_dia, sigma_d_dia))`, with the normal sample stream
modelled by `draw`. -/
def demandAt (p : SimParams) (draw : ℕ → ℚ) (t : ℕ) : ℚ :=
  if p.sigma_d_dia ≤ 0 then p.d_dia else max 0 (draw t)

/-- Total quantity of pending shipments whose arrival day is `t`
(`sum(q for (day, q) in pending if day == t)`). -/
def arrivedSum (pending : List (ℕ × ℚ)) (t : ℕ) : ℚ :=
  ((pending.filter fun pr => pr.1 == t).map Prod.snd).sum

/-- Step 1 of the loop body (`# 1) Chegadas`): if some pending shipment is
due on day `t`, add its quantity to on-hand, record the arrival day and drop
it from the pending set. -/
def stepArrivals (s : SimState) (t : ℕ) : SimState :=
  if s.pending.any (fun pr => pr.1 == t) then
    { s with on_hand := s.on_hand + arrivedSum s.pending t,
             pending := s.pending.filter (fun pr => !(pr.1 == t)),
             arrival_times := s.arrival_times ++ [t] }
  else s

/-- Step 2 of the loop body (`# 2) Consumo`): subtract the day's demand from
on-hand; with `clamp_zero`, a negative result is clamped to zero and the
stockout-day counter is incremented. -/
def stepConsume (p : SimParams) (draw : ℕ → ℚ) (s : SimState) (t : ℕ) : SimState :=
  if p.clamp_zero = true ∧ s.on_hand - demandAt p draw t < 0 then
    { s with on_hand := 0, stockout_days := s.stockout_days + 1 }
  else { s with on_hand := s.on_hand - demandAt p draw t }

/-- Steps 3 and 4 of the loop body (`# 3) Posição de estoque`,
`# 4) Regra (Q, r)`): if the inventory position (on-hand plus on-order) is at
most `r`, place an order of `Q` due on day `t + L` and record the order
day. -/
def stepReorder (p : SimParams) (s : SimState) (t : ℕ) : SimState :=
  if s.on_hand + (s.pending.map Prod.snd).sum ≤ p.r then
    { s with pending := s.pending ++ [(t + p.L, p.Q)],
             order_times := s.order_times ++ [t] }
  else s

/-- One iteration of the Python `for t in range(1, T + 1)` loop body:
arrivals, consumption with optional clamping, the (Q, r) reorder rule, and
the trace records (on-hand after consumption, position after consumption but
before the new order is counted, exactly as in the source). -/
def simStep (p : SimParams) (draw : ℕ → ℚ) (s : SimState) (t : ℕ) : SimState :=
  let s2 := stepConsume p draw (stepArrivals s t) t
  let s3 := stepReorder p s2 t
  { s3 with y_onhand := s.y_onhand ++ [s2.on_hand],
            y_pos := s.y_pos ++ [s2.on_hand + (s2.pending.map Prod.snd).sum] }

/-- The state after days `1..t` have been simulated. -/
def simUpTo (p : SimParams) (draw : ℕ → ℚ) : ℕ → SimState
  | 0 => initState p
  | t + 1 => simStep p draw (simUpTo p draw t) (t + 1)

/-- Embeds `sim_serrilhado_com_leadtime`: runs the daily loop over the whole
horizon `T`. -/
def sim_serrilhado_com_leadtime (p : SimParams) (draw : ℕ → ℚ) : SimState :=
  simUpTo p draw p.T

/-- The simulator as called with a seed: `np.random.default_rng(seed)` is a
pure function of the seed, modelled by a generator `gen` mapping the seed to
the stream of normal samples. -/
def simSeeded (gen : ℕ → ℕ → ℚ) (p : SimParams) (seed : ℕ) : SimState :=
  sim_serrilhado_com_leadtime p (gen seed)

/-- The on-hand level on day `t` after step 1 (arrivals) and before step 2
(consumption). -/
def postArrivalOnHand (p : SimParams) (draw : ℕ → ℚ) (t : ℕ) : ℚ :=
  (simUpTo p draw (t - 1)).on_hand +
    arrivedSum (simUpTo p draw (t - 1)).pending t

/-- Day `t` is a stockout day when the day's demand exceeds the post-arrival
on-hand level. -/
def stockoutDay (p : SimParams) (draw : ℕ → ℚ) (t : ℕ) : Bool :=
  decide (postArrivalOnHand p draw t < demandAt p draw t)

/-- No clamping occurs during the run: on every day `1..T` the demand does
not exceed the post-arrival on-hand level. -/
def NoClampHolds (p : SimParams) (draw : ℕ → ℚ) : Prop :=
  ∀ t ∈ Finset.Icc 1 p.T, demandAt p draw t ≤ postArrivalOnHand p draw t

/-- A zero demand-sample stream, used to instantiate concrete runs. -/
def drawZero : ℕ → ℚ := fun _ => 0

/-- Concrete run exhibiting the steady-mode initial shipment: `Q = 10`,
`r = 5`, `d_dia = 1`, `L = 2`, `sigma = 0`, `T = 3`, clamping on, steady
start. -/
def pRun1 : SimParams := ⟨10, 5, 1, 2, 0, 3, true, StartMode.steady⟩

/-- Concrete run with a stockout: `Q = 3`, `r = 2`, `d_dia = 7`, `L = 1`,
`sigma = 0`, `T = 2`, clamping on, lot start. -/
def pRun2 : SimParams := ⟨3, 2, 7, 1, 0, 2, true, StartMode.lot⟩

/-- Concrete run with zero lead time: `Q = 4`, `r = 3`, `d_dia = 1`, `L = 0`,
`sigma = 0`, `T = 2`, clamping on, lot start. -/
def pRun3 : SimParams := ⟨4, 3, 1, 0, 0, 2, true, StartMode.lot⟩

/-- Concrete run with demand variability: `Q = 5`, `r = 2`, `d_dia = 1`,
`L = 1`, `sigma = 1`, `T = 2`, clamping on, steady start. -/
def pRun4 : SimParams := ⟨5, 2, 1, 1, 1, 2, true, StartMode.steady⟩

/-- A concrete seed-indexed sample-stream generator, used to instantiate
seeded runs. -/
def genLin : ℕ → ℕ → ℚ := fun seed t => (seed : ℚ) + t

/-- C1: for every `D`, `K`, `h`, `eoq(D, K, h)` returns `sqrt(2*K*D/h)` when
`D > 0`, `K >= 0` and `h > 0`, and returns not-a-number in every other case
(the embedded function is total, so no exception can be raised); moreover on
the valid domain the returned value minimizes the per-period cost
`K*D/Q + h*Q/2` over `Q > 0`. -/
theorem eoq_correct (D K h : ℝ) :
    ((0 < D ∧ 0 ≤ K ∧ 0 < h) → eoq D K h = some (Real.sqrt (2 * K * D / h))) ∧
    (¬(0 < D ∧ 0 ≤ K ∧ 0 < h) → eoq D K h = none) ∧
    ((0 < D ∧ 0 ≤ K ∧ 0 < h) → ∀ Q, 0 < Q →
      costObjective D K h (Real.sqrt (2 * K * D / h)) ≤ costObjective D K h Q) := by
  refine ⟨?_, ?_, ?_⟩
  · rintro ⟨hD, hK, hh⟩
    rw [eoq, if_neg]
    push_neg
    exact ⟨hD, hK, hh⟩
  · intro hn
    have hg : D ≤ 0 ∨ K < 0 ∨ h ≤ 0 := by
      by_contra hc
      push_neg at hc
      exact hn hc
    rw [eoq, if_pos hg]
  · rintro ⟨hD, hK, hh⟩ Q hQ
    rcases eq_or_lt_of_le hK with hK0 | hKpos
    · have hK0' : K = 0 := hK0.symm
      subst hK0'
      have hs : Real.sqrt (2 * 0 * D / h) = 0 := by norm_num
      rw [hs]
      simp only [costObjective, zero_mul, zero_div, div_zero, mul_zero, zero_add]
      positivity
    · have hspos : 0 < Real.sqrt (2 * K * D / h) :=
        Real.sqrt_pos.mpr (by positivity)
      set s := Real.sqrt (2 * K * D / h) with hs_def
      have hs2 : h * s ^ 2 = 2 * (K * D) := by
        rw [hs_def, Real.sq_sqrt (by positivity : (0:ℝ) ≤ 2 * K * D / h)]
        field_simp
        ring
      have e1 : K * D / s = h * s / 2 := by
        rw [div_eq_iff hspos.ne']
        linear_combination -hs2 / 2
      have e2 : K * D / Q + h * (Q / 2) - (h * s / 2 + h * (s / 2)) =
          h * (Q - s) ^ 2 / (2 * Q) := by
        have e3 : K * D = h * s ^ 2 / 2 := by linear_combination -hs2 / 2
        rw [e3]
        field_simp
        ring
      have e4 : 0 ≤ h * (Q - s) ^ 2 / (2 * Q) := by positivity
      rw [costObjective, costObjective, e1]
      linarith [e2, e4]

/-- Witness for C1 at concrete inputs `(D, K, h) = (2, 1, 1)` (valid domain)
and `(-1, 1, 1)` (degenerate domain), comparing the minimizer against
`Q = 3`. -/
theorem eoq_correct_witness :
    eoq 2 1 1 = some (Real.sqrt (2 * 1 * 2 / 1)) ∧
    eoq (-1) 1 1 = none ∧
    costObjective 2 1 1 (Real.sqrt (2 * 1 * 2 / 1)) ≤ costObjective 2 1 1 3 :=
  ⟨(eoq_correct 2 1 1).1 (by norm_num),
   (eoq_correct (-1) 1 1).2.1 (by norm_num),
   (eoq_correct 2 1 1).2.2 (by norm_num) 3 (by norm_num)⟩

/-- C2: `custos_periodicos(Q, D, K, h, SS)` returns the triple
`(K*D/Q, h*(Q/2 + max(0,SS)), their sum)` when `Q > 0`, `D > 0`, `h >= 0`,
`K >= 0`, returns the not-a-number triple exactly when
`Q <= 0 or D <= 0 or h < 0 or K < 0 or Q undefined`, and the third component
always equals the (NaN-propagating) sum of the first two. -/
theorem custos_periodicos_correct (Q : Option ℝ) (D K h SS : ℝ) :
    (∀ q, Q = some q → 0 < q → 0 < D → 0 ≤ h → 0 ≤ K →
      custos_periodicos Q D K h SS =
        (some (K * D / q), some (h * (q / 2 + max 0 SS)),
         some (K * D / q + h * (q / 2 + max 0 SS)))) ∧
    (custos_periodicos Q D K h SS = (none, none, none) ↔
      Q = none ∨ ∃ q, Q = some q ∧ (q ≤ 0 ∨ D ≤ 0 ∨ h < 0 ∨ K < 0)) ∧
    (custos_periodicos Q D K h SS).2.2 =
      nanAdd (custos_periodicos Q D K h SS).1 (custos_periodicos Q D K h SS).2.1 := by
  refine ⟨?_, ?_, ?_⟩
  · rintro q rfl hq hD hh hK
    rw [custos_periodicos, if_neg]
    push_neg
    exact ⟨hq, hD, hh, hK⟩
  · cases Q with
    | none => simp [custos_periodicos]
    | some q =>
      by_cases hg : q ≤ 0 ∨ D ≤ 0 ∨ h < 0 ∨ K < 0
      · simp only [custos_periodicos, if_pos hg]
        simp [hg]
      · simp only [custos_periodicos, if_neg hg]
        simp [hg]
  · cases Q with
    | none => simp [custos_periodicos, nanAdd]
    | some q =>
      by_cases hg : q ≤ 0 ∨ D ≤ 0 ∨ h < 0 ∨ K < 0
      · simp only [custos_periodicos, if_pos hg]
        simp [nanAdd]
      · simp only [custos_periodicos, if_neg hg]
        simp [nanAdd]

/-- Witness for C2 at `Q = 2`, `D = 3`, `K = 1`, `h = 1`, `SS = -5`. -/
theorem custos_periodicos_correct_witness :
    custos_periodicos (some 2) 3 1 1 (-5) =
      (some (1 * 3 / 2), some (1 * (2 / 2 + max 0 (-5))),
       some (1 * 3 / 2 + 1 * (2 / 2 + max 0 (-5)))) :=
  (custos_periodicos_correct (some 2) 3 1 1 (-5)).1 2 rfl (by norm_num)
    (by norm_num) (by norm_num) (by norm_num)

/-- C3: for finite `q` and `moq >= 0`, `multiple >= 0`,
`ajusta_por_moq_multiplo` is idempotent, its output is `>= moq` whenever
`moq > 0`, and its output is an integer multiple of `multiple` whenever
`multiple > 0` (MOQ floor applied before the lot-multiple ceiling satisfies
both constraints simultaneously). -/
theorem ajusta_por_moq_multiplo_correct (q moq mult : ℝ)
    (hmoq : 0 ≤ moq) (hmult : 0 ≤ mult) :
    ajusta_por_moq_multiplo (ajusta_por_moq_multiplo (some q) moq mult) moq mult =
      ajusta_por_moq_multiplo (some q) moq mult ∧
    ∃ y, ajusta_por_moq_multiplo (some q) moq mult = some y ∧
      (0 < moq → moq ≤ y) ∧ (0 < mult → ∃ n : ℤ, y = mult * n) := by
  have hq1 : ∀ x : ℝ, 0 < moq → moq ≤ (if 0 < moq ∧ x < moq then moq else x) := by
    intro x hm
    by_cases hc : x < moq
    · rw [if_pos ⟨hm, hc⟩]
    · rw [if_neg (fun hand => hc hand.2)]
      exact le_of_not_lt hc
  have hfix : ∀ y : ℝ, (0 < moq → moq ≤ y) →
      (if 0 < moq ∧ y < moq then moq else y) = y := by
    intro y hy
    rw [if_neg]
    rintro ⟨hm, hlt⟩
    exact absurd hlt (not_lt.mpr (hy hm))
  by_cases hM : 0 < mult
  · set q1 : ℝ := if 0 < moq ∧ q < moq then moq else q with hq1def
    have hval : ajusta_por_moq_multiplo (some q) moq mult =
        some (mult * ⌈q1 / mult⌉) := by
      rw [ajusta_por_moq_multiplo, if_pos hM]
    have hge : 0 < moq → moq ≤ mult * ⌈q1 / mult⌉ := by
      intro hm
      refine le_trans (hq1 q hm) ?_
      have h2 : q1 / mult * mult ≤ (⌈q1 / mult⌉ : ℝ) * mult :=
        mul_le_mul_of_nonneg_right (Int.le_ceil _) hmult
      rw [div_mul_cancel₀ q1 hM.ne'] at h2
      linarith [h2]
    refine ⟨?_, mult * ⌈q1 / mult⌉, hval, hge, fun _ => ⟨⌈q1 / mult⌉, rfl⟩⟩
    rw [hval, ajusta_por_moq_multiplo, if_pos hM, hfix _ hge]
    rw [mul_comm mult (⌈q1 / mult⌉ : ℝ), mul_div_assoc,
      div_self hM.ne', mul_one, Int.ceil_intCast, mul_comm]
  · set q1 : ℝ := if 0 < moq ∧ q < moq then moq else q with hq1def
    have hval : ajusta_por_moq_multiplo (some q) moq mult = some q1 := by
      rw [ajusta_por_moq_multiplo, if_neg hM]
    refine ⟨?_, q1, hval, hq1 q, fun hc => absurd hc hM⟩
    rw [hval, ajusta_por_moq_multiplo, if_neg hM, hfix _ (hq1 q)]

/-- Witness for C3 at `q = 7/2`, `moq = 2`, `multiple = 3`. -/
theorem ajusta_por_moq_multiplo_correct_witness :
    ajusta_por_moq_multiplo (ajusta_por_moq_multiplo (some (7/2)) 2 3) 2 3 =
      ajusta_por_moq_multiplo (some (7/2)) 2 3 ∧
    ∃ y, ajusta_por_moq_multiplo (some (7/2)) 2 3 = some y ∧
      ((0:ℝ) < 2 → 2 ≤ y) ∧ ((0:ℝ) < 3 → ∃ n : ℤ, y = 3 * n) :=
  ajusta_por_moq_multiplo_correct (7/2) 2 3 (by norm_num) (by norm_num)

/-- C4: when a baseline reorder point `r0 > 0` is supplied, the baseline
safety stock is back-derived as `SS0 = max(0, r0 - mu_L)`, hence never
negative, it is zero whenever `r0 < mu_L`, and the baseline reorder point
used is `r0` itself. -/
theorem SS_base_resolve_correct (rb mu ssd : ℝ) (hrb : 0 < rb) :
    (SS_base_resolve (some rb) mu ssd).1 = max 0 (rb - mu) ∧
    0 ≤ (SS_base_resolve (some rb) mu ssd).1 ∧
    (rb < mu → (SS_base_resolve (some rb) mu ssd).1 = 0) ∧
    (SS_base_resolve (some rb) mu ssd).2 = rb := by
  have h1 : SS_base_resolve (some rb) mu ssd = (max 0 (rb - mu), rb) := by
    simp only [SS_base_resolve, if_pos hrb]
  rw [h1]
  refine ⟨rfl, le_max_left _ _, ?_, rfl⟩
  intro hlt
  exact max_eq_left (sub_nonpos.mpr hlt.le)

/-- Witness for C4 at `r0 = 3`, `mu_L = 5` (baseline below mean lead-time
demand). -/
theorem SS_base_resolve_correct_witness :
    (SS_base_resolve (some 3) 5 9).1 = max 0 (3 - 5) ∧
    0 ≤ (SS_base_resolve (some 3) 5 9).1 ∧
    ((3:ℝ) < 5 → (SS_base_resolve (some 3) 5 9).1 = 0) ∧
    (SS_base_resolve (some 3) 5 9).2 = 3 :=
  SS_base_resolve_correct 3 5 9 (by norm_num)

/-- C8 counterexample: with a finite baseline total of `0` (not positive) and
a finite optimal total of `5`, the code still returns the defined savings
`0 - 5`, not NaN, contradicting "savings is not-a-number whenever ... the
baseline total cost is not positive"; and with baseline total `1 > 0` but a
non-finite optimal total, the percentage is NaN even though the baseline is
finite and positive, contradicting "the savings percentage is not-a-number
exactly when the baseline total cost is not finite or not strictly
positive". -/
theorem economia_claim_counterexample :
    economia_per (some 0) (some 5) = some (0 - 5) ∧
    ¬ economia_per (some 0) (some 5) = none ∧
    economia_pct (economia_per (some 1) none) (some 1) = none ∧
    ¬ ((some (1:ℝ) : Option ℝ) = none ∨ (1:ℝ) ≤ 0) := by
  refine ⟨rfl, by simp [economia_per], ?_, ?_⟩
  · norm_num [economia_per, economia_pct]
  · push_neg
    exact ⟨Option.some_ne_none _, by norm_num⟩

/-- C8 (amended): the per-period savings is not-a-number exactly when either
total cost is non-finite, and otherwise equals `ctot_base - ctot_opt` (with
no positivity requirement on the baseline); the savings percentage is
not-a-number exactly when the baseline total is non-finite, or not strictly
positive, or the optimal total is non-finite, and otherwise equals
`savings / ctot_base * 100`. -/
theorem economia_correct (cb co : Option ℝ) :
    (economia_per cb co = none ↔ cb = none ∨ co = none) ∧
    (∀ b o, cb = some b → co = some o → economia_per cb co = some (b - o)) ∧
    (economia_pct (economia_per cb co) cb = none ↔
      cb = none ∨ co = none ∨ ∃ b, cb = some b ∧ b ≤ 0) ∧
    (∀ b o, cb = some b → co = some o → 0 < b →
      economia_pct (economia_per cb co) cb = some ((b - o) / b * 100)) := by
  cases cb with
  | none => simp [economia_per, economia_pct]
  | some b =>
    cases co with
    | none =>
      by_cases hb : 0 < b
      · simp [economia_per, economia_pct, hb]
      · simp [economia_per, economia_pct, hb, le_of_not_lt hb]
    | some o =>
      by_cases hb : 0 < b
      · simp [economia_per, economia_pct, hb, not_le.mpr hb]
      · simp [economia_per, economia_pct, hb, le_of_not_lt hb]

/-- Witness for C8 (amended) at baseline total `4`, optimal total `1`. -/
theorem economia_correct_witness :
    economia_per (some 4) (some 1) = some (4 - 1) ∧
    economia_pct (economia_per (some 4) (some 1)) (some 4) =
      some ((4 - 1) / 4 * 100) :=
  ⟨(economia_correct (some 4) (some 1)).2.1 4 1 rfl rfl,
   (economia_correct (some 4) (some 1)).2.2.2 4 1 rfl rfl (by norm_num)⟩

theorem arrivedSum_eq_zero {pending : List (ℕ × ℚ)} {t : ℕ}
    (h : ¬ pending.any (fun pr => pr.1 == t) = true) : arrivedSum pending t = 0 := by
  have hnil : pending.filter (fun pr => pr.1 == t) = [] :=
    List.filter_eq_nil_iff.mpr (fun a ha hpa => h (List.any_eq_true.mpr ⟨a, ha, hpa⟩))
  rw [arrivedSum, hnil]
  rfl

@[simp]
theorem stepArrivals_on_hand (s : SimState) (t : ℕ) :
    (stepArrivals s t).on_hand = s.on_hand + arrivedSum s.pending t := by
  by_cases h : s.pending.any (fun pr => pr.1 == t) = true
  · rw [stepArrivals, if_pos h]
  · rw [stepArrivals, if_neg h, arrivedSum_eq_zero h, add_zero]

@[simp]
theorem stepArrivals_order_times (s : SimState) (t : ℕ) :
    (stepArrivals s t).order_times = s.order_times := by
  rw [stepArrivals]
  split <;> rfl

@[simp]
theorem stepArrivals_stockout_days (s : SimState) (t : ℕ) :
    (stepArrivals s t).stockout_days = s.stockout_days := by
  rw [stepArrivals]
  split <;> rfl

theorem stepArrivals_arrival_times (s : SimState) (t : ℕ) :
    (stepArrivals s t).arrival_times =
      if s.pending.any (fun pr => pr.1 == t) then s.arrival_times ++ [t]
      else s.arrival_times := by
  rw [stepArrivals]
  split <;> simp_all

theorem stepArrivals_pending (s : SimState) (t : ℕ) :
    (stepArrivals s t).pending =
      if s.pending.any (fun pr => pr.1 == t) then
        s.pending.filter (fun pr => !(pr.1 == t))
      else s.pending := by
  rw [stepArrivals]
  split <;> simp_all

@[simp]
theorem stepConsume_pending (p : SimParams) (draw : ℕ → ℚ) (s : SimState) (t : ℕ) :
    (stepConsume p draw s t).pending = s.pending := by
  rw [stepConsume]
  split <;> rfl

@[simp]
theorem stepConsume_order_times (p : SimParams) (draw : ℕ → ℚ) (s : SimState) (t : ℕ) :
    (stepConsume p draw s t).order_times = s.order_times := by
  rw [stepConsume]
  split <;> rfl

@[simp]
theorem stepConsume_arrival_times (p : SimParams) (draw : ℕ → ℚ) (s : SimState) (t : ℕ) :
    (stepConsume p draw s t).arrival_times = s.arrival_times := by
  rw [stepConsume]
  split <;> rfl

theorem stepConsume_on_hand (p : SimParams) (draw : ℕ → ℚ) (s : SimState) (t : ℕ) :
    (stepConsume p draw s t).on_hand =
      if p.clamp_zero = true ∧ s.on_hand - demandAt p draw t < 0 then 0
      else s.on_hand - demandAt p draw t := by
  rw [stepConsume]
  split <;> simp_all

theorem stepConsume_stockout_days (p : SimParams) (draw : ℕ → ℚ) (s : SimState) (t : ℕ) :
    (stepConsume p draw s t).stockout_days =
      if p.clamp_zero = true ∧ s.on_hand - demandAt p draw t < 0 then
        s.stockout_days + 1
      else s.stockout_days := by
  rw [stepConsume]
  split <;> simp_all

@[simp]
theorem stepReorder_on_hand (p : SimParams) (s : SimState) (t : ℕ) :
    (stepReorder p s t).on_hand = s.on_hand := by
  rw [stepReorder]
  split <;> rfl

@[simp]
theorem stepReorder_arrival_times (p : SimParams) (s : SimState) (t : ℕ) :
    (stepReorder p s t).arrival_times = s.arrival_times := by
  rw [stepReorder]
  split <;> rfl

@[simp]
theorem stepReorder_stockout_days (p : SimParams) (s : SimState) (t : ℕ) :
    (stepReorder p s t).stockout_days = s.stockout_days := by
  rw [stepReorder]
  split <;> rfl

theorem simStep_on_hand (p : SimParams) (draw : ℕ → ℚ) (s : SimState) (t : ℕ) :
    (simStep p draw s t).on_hand =
      if p.clamp_zero = true ∧
          s.on_hand + arrivedSum s.pending t - demandAt p draw t < 0 then 0
      else s.on_hand + arrivedSum s.pending t - demandAt p draw t := by
  show (stepReorder p (stepConsume p draw (stepArrivals s t) t) t).on_hand = _
  rw [stepReorder_on_hand, stepConsume_on_hand, stepArrivals_on_hand]

theorem simStep_stockout_days (p : SimParams) (draw : ℕ → ℚ) (s : SimState) (t : ℕ) :
    (simStep p draw s t).stockout_days =
      if p.clamp_zero = true ∧
          s.on_hand + arrivedSum s.pending t - demandAt p draw t < 0 then
        s.stockout_days + 1
      else s.stockout_days := by
  show (stepReorder p (stepConsume p draw (stepArrivals s t) t) t).stockout_days = _
  rw [stepReorder_stockout_days, stepConsume_stockout_days, stepArrivals_on_hand,
    stepArrivals_stockout_days]

theorem simStep_y_onhand (p : SimParams) (draw : ℕ → ℚ) (s : SimState) (t : ℕ) :
    (simStep p draw s t).y_onhand = s.y_onhand ++ [(simStep p draw s t).on_hand] := by
  show s.y_onhand ++ [(stepConsume p draw (stepArrivals s t) t).on_hand] = _
  have h3 : (simStep p draw s t).on_hand =
      (stepConsume p draw (stepArrivals s t) t).on_hand := by
    show (stepReorder p (stepConsume p draw (stepArrivals s t) t) t).on_hand = _
    rw [stepReorder_on_hand]
  rw [h3]

theorem simStep_arrival_times (p : SimParams) (draw : ℕ → ℚ) (s : SimState) (t : ℕ) :
    (simStep p draw s t).arrival_times =
      if s.pending.any (fun pr => pr.1 == t) then s.arrival_times ++ [t]
      else s.arrival_times := by
  show (stepReorder p (stepConsume p draw (stepArrivals s t) t) t).arrival_times = _
  rw [stepReorder_arrival_times, stepConsume_arrival_times, stepArrivals_arrival_times]

theorem simStep_orders_pending (p : SimParams) (draw : ℕ → ℚ) (s : SimState) (t : ℕ) :
    ((simStep p draw s t).order_times = s.order_times ∧
      (simStep p draw s t).pending = (stepArrivals s t).pending) ∨
    ((simStep p draw s t).order_times = s.order_times ++ [t] ∧
      (simStep p draw s t).pending = (stepArrivals s t).pending ++ [(t + p.L, p.Q)]) := by
  have ho : (simStep p draw s t).order_times =
      (stepReorder p (stepConsume p draw (stepArrivals s t) t) t).order_times := rfl
  have hp : (simStep p draw s t).pending =
      (stepReorder p (stepConsume p draw (stepArrivals s t) t) t).pending := rfl
  rw [ho, hp, stepReorder]
  split
  · right
    constructor
    · rw [stepConsume_order_times, stepArrivals_order_times]
    · rw [stepConsume_pending]
  · left
    constructor
    · rw [stepConsume_order_times, stepArrivals_order_times]
    · rw [stepConsume_pending]

theorem postArrivalOnHand_succ (p : SimParams) (draw : ℕ → ℚ) (t : ℕ) :
    postArrivalOnHand p draw (t + 1) =
      (simUpTo p draw t).on_hand + arrivedSum (simUpTo p draw t).pending (t + 1) := by
  rw [postArrivalOnHand, Nat.add_sub_cancel]

theorem demandAt_nonneg (p : SimParams) (draw : ℕ → ℚ) (t : ℕ) (hd : 0 ≤ p.d_dia) :
    0 ≤ demandAt p draw t := by
  rw [demandAt]
  split
  · exact hd
  · exact le_max_left 0 (draw t)

theorem initState_on_hand_nonneg (p : SimParams)
    (hinit : if p.start_mode = StartMode.steady then 0 ≤ p.r else 0 ≤ p.Q) :
    0 ≤ (initState p).on_hand := by
  cases hm : p.start_mode <;> rw [hm] at hinit <;> simp_all [initState]

theorem simUpTo_on_hand_nonneg (p : SimParams) (draw : ℕ → ℚ)
    (hclamp : p.clamp_zero = true)
    (hinit : if p.start_mode = StartMode.steady then 0 ≤ p.r else 0 ≤ p.Q) :
    ∀ t, 0 ≤ (simUpTo p draw t).on_hand := by
  intro t
  cases t with
  | zero => exact initState_on_hand_nonneg p hinit
  | succ t =>
    rw [simUpTo, simStep_on_hand]
    split
    · exact le_refl 0
    · next h =>
      exact le_of_not_lt (fun hlt => h ⟨hclamp, hlt⟩)

theorem simUpTo_y_onhand_getLast (p : SimParams) (draw : ℕ → ℚ) :
    ∀ t, (simUpTo p draw t).y_onhand.getLast? = some ((simUpTo p draw t).on_hand) := by
  intro t
  cases t with
  | zero => cases hm : p.start_mode <;> simp [simUpTo, initState, hm]
  | succ t =>
    rw [simUpTo, simStep_y_onhand, List.getLast?_concat]

theorem simUpTo_stockout_count (p : SimParams) (draw : ℕ → ℚ)
    (hclamp : p.clamp_zero = true) :
    ∀ t, (simUpTo p draw t).stockout_days =
      ((List.range t).filter fun i => stockoutDay p draw (i + 1)).length := by
  intro t
  induction t with
  | zero => cases hm : p.start_mode <;> simp [simUpTo, initState, hm]
  | succ t ih =>
    rw [simUpTo, simStep_stockout_days]
    have harr : (simUpTo p draw t).on_hand +
        arrivedSum (simUpTo p draw t).pending (t + 1) - demandAt p draw (t + 1) =
        postArrivalOnHand p draw (t + 1) - demandAt p draw (t + 1) := by
      rw [postArrivalOnHand_succ]
    rw [harr, List.range_succ, List.filter_append, List.length_append, ih]
    have hcond : (p.clamp_zero = true ∧
        postArrivalOnHand p draw (t + 1) - demandAt p draw (t + 1) < 0) ↔
        stockoutDay p draw (t + 1) = true := by
      rw [stockoutDay, decide_eq_true_eq, sub_neg]
      simp [hclamp]
    by_cases hs : stockoutDay p draw (t + 1) = true
    · rw [if_pos (hcond.mpr hs)]
      simp [List.filter_cons, hs]
    · rw [if_neg (fun hc => hs (hcond.mp hc))]
      simp [List.filter_cons, hs]

/-- C5: with clamping enabled and a nonnegative initial stock (`r >= 0` in
steady mode, `Q >= 0` in lot mode), every on-hand value recorded in the trace
over days `0..T` is nonnegative, and the stockout-day counter counts exactly
the days on which the day's demand exceeds the post-arrival on-hand level. -/
theorem sim_clamp_correct (p : SimParams) (draw : ℕ → ℚ)
    (hclamp : p.clamp_zero = true)
    (hinit : if p.start_mode = StartMode.steady then 0 ≤ p.r else 0 ≤ p.Q) :
    (∀ x ∈ (sim_serrilhado_com_leadtime p draw).y_onhand, 0 ≤ x) ∧
    (sim_serrilhado_com_leadtime p draw).stockout_days =
      ((List.range p.T).filter fun i => stockoutDay p draw (i + 1)).length := by
  constructor
  · rw [sim_serrilhado_com_leadtime]
    have key : ∀ t, ∀ x ∈ (simUpTo p draw t).y_onhand, 0 ≤ x := by
      intro t
      induction t with
      | zero =>
        intro x hx
        have h0 := initState_on_hand_nonneg p hinit
        cases hm : p.start_mode <;> rw [hm] at hinit <;>
          simp_all [simUpTo, initState, hm]
      | succ t ih =>
        intro x hx
        rw [simUpTo, simStep_y_onhand] at hx
        rcases List.mem_append.mp hx with hx | hx
        · exact ih x hx
        · have hx' : x = (simStep p draw (simUpTo p draw t) (t + 1)).on_hand := by
            simpa using hx
          have := simUpTo_on_hand_nonneg p draw hclamp hinit (t + 1)
          rw [simUpTo] at this
          rw [hx']
          exact this
    exact key p.T
  · rw [sim_serrilhado_com_leadtime]
    exact simUpTo_stockout_count p draw hclamp p.T

/-- Witness for C5: the concrete lot-start run `pRun2` (where demand 7
exceeds the initial stock 3 on day 1). -/
theorem sim_clamp_correct_witness :
    (∀ x ∈ (sim_serrilhado_com_leadtime pRun2 drawZero).y_onhand, 0 ≤ x) ∧
    (sim_serrilhado_com_leadtime pRun2 drawZero).stockout_days =
      ((List.range pRun2.T).filter fun i => stockoutDay pRun2 drawZero (i + 1)).length :=
  sim_clamp_correct pRun2 drawZero rfl (by norm_num [pRun2])

/-- C6: simulator determinism — two runs with identical parameters and the
identical seed produce identical outputs (full state, and in particular the
on-hand sequence, position sequence, order-day list, arrival-day list, and
stockout count), for any model `gen` of the seeded numpy generator. -/
theorem simSeeded_deterministic (gen : ℕ → ℕ → ℚ) (p₁ p₂ : SimParams)
    (seed₁ seed₂ : ℕ) (hp : p₁ = p₂) (hs : seed₁ = seed₂) :
    simSeeded gen p₁ seed₁ = simSeeded gen p₂ seed₂ ∧
    (simSeeded gen p₁ seed₁).y_onhand = (simSeeded gen p₂ seed₂).y_onhand ∧
    (simSeeded gen p₁ seed₁).y_pos = (simSeeded gen p₂ seed₂).y_pos ∧
    (simSeeded gen p₁ seed₁).order_times = (simSeeded gen p₂ seed₂).order_times ∧
    (simSeeded gen p₁ seed₁).arrival_times = (simSeeded gen p₂ seed₂).arrival_times ∧
    (simSeeded gen p₁ seed₁).stockout_days = (simSeeded gen p₂ seed₂).stockout_days := by
  subst hp
  subst hs
  exact ⟨rfl, rfl, rfl, rfl, rfl, rfl⟩

/-- Witness for C6 at the concrete parameters `pRun4`, generator `genLin`
and seed `7`. -/
theorem simSeeded_deterministic_witness :
    simSeeded genLin pRun4 7 = simSeeded genLin pRun4 7 ∧
    (simSeeded genLin pRun4 7).y_onhand = (simSeeded genLin pRun4 7).y_onhand ∧
    (simSeeded genLin pRun4 7).y_pos = (simSeeded genLin pRun4 7).y_pos ∧
    (simSeeded genLin pRun4 7).order_times = (simSeeded genLin pRun4 7).order_times ∧
    (simSeeded genLin pRun4 7).arrival_times = (simSeeded genLin pRun4 7).arrival_times ∧
    (simSeeded genLin pRun4 7).stockout_days = (simSeeded genLin pRun4 7).stockout_days :=
  simSeeded_deterministic genLin pRun4 pRun4 7 7 rfl rfl

theorem simUpTo_pending_le_of_L0 (p : SimParams) (draw : ℕ → ℚ) (hL : p.L = 0) :
    ∀ t, ∀ pr ∈ (simUpTo p draw t).pending, pr.1 ≤ t := by
  intro t
  induction t with
  | zero =>
    intro pr hpr
    cases hm : p.start_mode <;> rw [simUpTo] at hpr <;>
      simp_all [initState, hm, hL]
  | succ t ih =>
    intro pr hpr
    have hmem : ∀ q ∈ (stepArrivals (simUpTo p draw t) (t + 1)).pending,
        q.1 ≤ t + 1 := by
      intro q hq
      rw [stepArrivals_pending] at hq
      have hq' : q ∈ (simUpTo p draw t).pending := by
        by_cases ha : (simUpTo p draw t).pending.any (fun pr => pr.1 == t + 1) = true
        · rw [if_pos ha] at hq
          exact (List.mem_filter.mp hq).1
        · rw [if_neg ha] at hq
          exact hq
      exact le_trans (ih q hq') (Nat.le_succ t)
    rw [simUpTo] at hpr
    rcases simStep_orders_pending p draw (simUpTo p draw t) (t + 1) with
      ⟨_, hpend⟩ | ⟨_, hpend⟩
    · rw [hpend] at hpr
      exact hmem pr hpr
    · rw [hpend] at hpr
      rcases List.mem_append.mp hpr with hpr | hpr
      · exact hmem pr hpr
      · have : pr = (t + 1 + p.L, p.Q) := by simpa using hpr
        rw [this, hL]

theorem simUpTo_arrivals_of_L0 (p : SimParams) (draw : ℕ → ℚ) (hL : p.L = 0) :
    ∀ t, (simUpTo p draw t).arrival_times = [] := by
  intro t
  induction t with
  | zero => cases hm : p.start_mode <;> simp [simUpTo, initState, hm]
  | succ t ih =>
    rw [simUpTo, simStep_arrival_times, if_neg, ih]
    intro hany
    rcases List.any_eq_true.mp hany with ⟨pr, hpr, hpr1⟩
    have h1 : pr.1 ≤ t := simUpTo_pending_le_of_L0 p draw hL t pr hpr
    have h2 : pr.1 = t + 1 := by simpa using hpr1
    omega

theorem simUpTo_on_hand_antitone_of_L0 (p : SimParams) (draw : ℕ → ℚ)
    (hL : p.L = 0) (hd : 0 ≤ p.d_dia)
    (hinit : if p.start_mode = StartMode.steady then 0 ≤ p.r else 0 ≤ p.Q) :
    ∀ t, (simUpTo p draw (t + 1)).on_hand ≤ (simUpTo p draw t).on_hand := by
  intro t
  rw [simUpTo, simStep_on_hand]
  have harr : arrivedSum (simUpTo p draw t).pending (t + 1) = 0 := by
    apply arrivedSum_eq_zero
    intro hany
    rcases List.any_eq_true.mp hany with ⟨pr, hpr, hpr1⟩
    have h1 : pr.1 ≤ t := simUpTo_pending_le_of_L0 p draw hL t pr hpr
    have h2 : pr.1 = t + 1 := by simpa using hpr1
    omega
  rw [harr, add_zero]
  have hdem : 0 ≤ demandAt p draw (t + 1) := demandAt_nonneg p draw (t + 1) hd
  split
  · next h =>
    exact simUpTo_on_hand_nonneg p draw h.1 hinit t
  · exact sub_le_self _ hdem

/-- C10: with lead time `L = 0`, the simulator never delivers any shipment —
the arrival-day list is empty and the recorded on-hand trace never increases
from one day to the next — for every horizon, every demand stream (hence
every seed) and both start modes (over the sane input domain of a nonnegative
daily demand rate and a nonnegative initial stock). -/
theorem sim_L0_correct (p : SimParams) (draw : ℕ → ℚ) (hL : p.L = 0)
    (hd : 0 ≤ p.d_dia)
    (hinit : if p.start_mode = StartMode.steady then 0 ≤ p.r else 0 ≤ p.Q) :
    (sim_serrilhado_com_leadtime p draw).arrival_times = [] ∧
    List.Chain' (fun a b => b ≤ a) (sim_serrilhado_com_leadtime p draw).y_onhand := by
  constructor
  · rw [sim_serrilhado_com_leadtime]
    exact simUpTo_arrivals_of_L0 p draw hL p.T
  · rw [sim_serrilhado_com_leadtime]
    have key : ∀ t, List.Chain' (fun a b => b ≤ a) (simUpTo p draw t).y_onhand := by
      intro t
      induction t with
      | zero => cases hm : p.start_mode <;> simp [simUpTo, initState, hm]
      | succ t ih =>
        rw [simUpTo, simStep_y_onhand]
        rw [List.chain'_append]
        refine ⟨ih, List.chain'_singleton _, ?_⟩
        intro x hx y hy
        rw [simUpTo_y_onhand_getLast p draw t] at hx
        have hx' : (simUpTo p draw t).on_hand = x := by simpa using hx
        have hy' : (simStep p draw (simUpTo p draw t) (t + 1)).on_hand = y := by
          simpa using hy
        have hmono := simUpTo_on_hand_antitone_of_L0 p draw hL hd hinit t
        rw [simUpTo] at hmono
        rw [← hx', ← hy']
        exact hmono
    exact key p.T

/-- Witness for C10: the concrete zero-lead-time run `pRun3`. -/
theorem sim_L0_correct_witness :
    (sim_serrilhado_com_leadtime pRun3 drawZero).arrival_times = [] ∧
    List.Chain' (fun a b => b ≤ a) (sim_serrilhado_com_leadtime pRun3 drawZero).y_onhand :=
  sim_L0_correct pRun3 drawZero rfl (by norm_num [pRun3]) (by norm_num [pRun3])

theorem any_map_fst {l : List ℕ} {g : ℕ → ℕ} {q : ℚ} {p : ℕ × ℚ → Bool} :
    ((l.map fun o => (g o, q)).any p) = l.any (fun o => p (g o, q)) := by
  induction l with
  | nil => rfl
  | cons a l ih => simp [List.any_cons, ih]

theorem countP_or_split {l : List ℕ} {P Q : ℕ → Prop} [DecidablePred P]
    [DecidablePred Q] (hdisj : ∀ a ∈ l, ¬(P a ∧ Q a)) :
    l.countP (fun a => decide (P a ∨ Q a)) =
      l.countP (fun a => decide (P a)) + l.countP (fun a => decide (Q a)) := by
  induction l with
  | nil => rfl
  | cons a l ih =>
    have hd : ¬(P a ∧ Q a) := hdisj a (List.mem_cons_self a l)
    have ih' := ih (fun b hb => hdisj b (List.mem_cons_of_mem a hb))
    rw [List.countP_cons, List.countP_cons, List.countP_cons, ih']
    by_cases hP : P a
    · by_cases hQ : Q a
      · exact absurd ⟨hP, hQ⟩ hd
      · simp only [hP, hQ, decide_eq_true_eq, or_false, decide_True, decide_False,
          if_true, if_false]
        simp [hP]
        omega
    · by_cases hQ : Q a
      · simp [hP, hQ]
        omega
      · simp [hP, hQ]

theorem countP_addL_eq_one {l : List ℕ} (hN : l.Nodup) {L c o₀ : ℕ}
    (ho : o₀ ∈ l) (hfo : o₀ + L = c) :
    l.countP (fun o => decide (o + L = c)) = 1 := by
  have h1 : l.countP (fun o => decide (o + L = c)) = l.countP (fun o => o == o₀) := by
    apply List.countP_congr
    intro x hx
    simp only [decide_eq_true_eq, beq_iff_eq]
    omega
  rw [h1]
  exact List.count_eq_one_of_mem hN ho

theorem steady_run_invariant (p : SimParams) (draw : ℕ → ℚ)
    (hm : p.start_mode = StartMode.steady) (hL : 1 ≤ p.L) :
    ∀ t,
      ((simUpTo p draw t).arrival_times.length =
        (if p.L ≤ t then 1 else 0) +
        (simUpTo p draw t).order_times.countP (fun o => decide (o + p.L ≤ t))) ∧
      ((simUpTo p draw t).pending =
        (if t < p.L then [(p.L, p.Q)] else []) ++
        ((simUpTo p draw t).order_times.filter fun o => decide (t < o + p.L)).map
          (fun o => (o + p.L, p.Q))) ∧
      (∀ o ∈ (simUpTo p draw t).order_times, 1 ≤ o ∧ o ≤ t) ∧
      (simUpTo p draw t).order_times.Nodup := by
  intro t
  induction t with
  | zero =>
    have h1 : ¬ p.L ≤ 0 := by omega
    have h2 : 0 < p.L := by omega
    refine ⟨?_, ?_, ?_, ?_⟩ <;> simp [simUpTo, initState, hm, h1, h2]
  | succ t ih =>
    obtain ⟨ihA, ihB, ihC, ihD⟩ := ih
    have hchar : ((simUpTo p draw t).pending.any fun pr => pr.1 == t + 1) = true ↔
        (p.L = t + 1 ∨ ∃ o ∈ (simUpTo p draw t).order_times, o + p.L = t + 1) := by
      rw [ihB, List.any_append, Bool.or_eq_true]
      apply or_congr
      · by_cases hlt : t < p.L
        · rw [if_pos hlt]
          simp [beq_iff_eq]
        · rw [if_neg hlt]
          simp only [List.any_nil, Bool.false_eq_true, false_iff]
          omega
      · rw [any_map_fst]
        simp only [List.any_eq_true, List.mem_filter, decide_eq_true_eq, beq_iff_eq]
        constructor
        · rintro ⟨o, ⟨ho, _⟩, he⟩
          exact ⟨o, ho, he⟩
        · rintro ⟨o, ho, he⟩
          exact ⟨o, ⟨ho, by omega⟩, he⟩
    have hP1 : (stepArrivals (simUpTo p draw t) (t + 1)).pending =
        (if t + 1 < p.L then [(p.L, p.Q)] else []) ++
        ((simUpTo p draw t).order_times.filter fun o => decide (t + 1 < o + p.L)).map
          (fun o => (o + p.L, p.Q)) := by
      rw [stepArrivals_pending]
      by_cases hA : ((simUpTo p draw t).pending.any fun pr => pr.1 == t + 1) = true
      · rw [if_pos hA, ihB, List.filter_append]
        congr 1
        · by_cases hlt : t < p.L
          · rw [if_pos hlt]
            by_cases hL1 : p.L = t + 1
            · rw [if_neg (by omega : ¬ (t + 1 < p.L)), List.filter_cons]
              simp [hL1]
            · rw [if_pos (by omega : t + 1 < p.L), List.filter_cons]
              simp [hL1]
          · rw [if_neg hlt, if_neg (by omega : ¬ (t + 1 < p.L))]
            rfl
        · rw [List.filter_map]
          congr 1
          rw [List.filter_filter]
          apply List.filter_congr
          intro o ho
          rw [Bool.eq_iff_iff]
          simp only [Function.comp, Bool.and_eq_true, Bool.not_eq_true',
            beq_eq_false_iff_ne, decide_eq_true_eq]
          omega
      · rw [if_neg hA, ihB]
        have hne : ¬(p.L = t + 1 ∨
            ∃ o ∈ (simUpTo p draw t).order_times, o + p.L = t + 1) :=
          fun hcon => hA (hchar.mpr hcon)
        push_neg at hne
        congr 1
        · have hiff : (t < p.L) ↔ (t + 1 < p.L) := by
            have := hne.1
            omega
          exact if_congr hiff rfl rfl
        · congr 1
          apply List.filter_congr
          intro o ho
          have := hne.2 o ho
          rw [decide_eq_decide]
          omega
    have hcases : ((simUpTo p draw (t + 1)).order_times =
          (simUpTo p draw t).order_times ∧
        (simUpTo p draw (t + 1)).pending =
          (stepArrivals (simUpTo p draw t) (t + 1)).pending) ∨
        ((simUpTo p draw (t + 1)).order_times =
          (simUpTo p draw t).order_times ++ [t + 1] ∧
        (simUpTo p draw (t + 1)).pending =
          (stepArrivals (simUpTo p draw t) (t + 1)).pending ++
            [(t + 1 + p.L, p.Q)]) := by
      rw [simUpTo]
      exact simStep_orders_pending p draw (simUpTo p draw t) (t + 1)
    refine ⟨?_, ?_, ?_, ?_⟩
    · have happ : ((simUpTo p draw t).order_times ++ [t + 1]).countP
          (fun o => decide (o + p.L ≤ t + 1)) =
          (simUpTo p draw t).order_times.countP (fun o => decide (o + p.L ≤ t + 1)) := by
        rw [List.countP_append]
        have hno : ¬ (t + 1 + p.L ≤ t + 1) := by omega
        simp [List.countP_cons, hno]
      have harrlen : (simUpTo p draw (t + 1)).arrival_times.length =
          (simUpTo p draw t).arrival_times.length +
            (if (simUpTo p draw t).pending.any (fun pr => pr.1 == t + 1) then 1 else 0) := by
        rw [simUpTo, simStep_arrival_times]
        split <;> simp
      have hORD : (simUpTo p draw (t + 1)).order_times.countP
          (fun o => decide (o + p.L ≤ t + 1)) =
          (simUpTo p draw t).order_times.countP (fun o => decide (o + p.L ≤ t + 1)) := by
        rcases hcases with ⟨hO, _⟩ | ⟨hO, _⟩
        · rw [hO]
        · rw [hO, happ]
      rw [harrlen, hORD, ihA]
      by_cases hA : ((simUpTo p draw t).pending.any fun pr => pr.1 == t + 1) = true
      · rw [if_pos hA]
        rcases hchar.mp hA with hL1 | ⟨o₀, ho₀, he⟩
        · have e0 : (simUpTo p draw t).order_times.countP
              (fun o => decide (o + p.L ≤ t)) = 0 :=
            List.countP_eq_zero.mpr (by
              intro a ha
              simp only [decide_eq_true_eq]
              have := ihC a ha
              omega)
          have e1 : (simUpTo p draw t).order_times.countP
              (fun o => decide (o + p.L ≤ t + 1)) = 0 :=
            List.countP_eq_zero.mpr (by
              intro a ha
              simp only [decide_eq_true_eq]
              have := ihC a ha
              omega)
          rw [e0, e1, if_neg (by omega : ¬ p.L ≤ t), if_pos (by omega : p.L ≤ t + 1)]
        · have hLle : p.L ≤ t := by
            have := ihC o₀ ho₀
            omega
          have hcongr : (simUpTo p draw t).order_times.countP
              (fun o => decide (o + p.L ≤ t + 1)) =
              (simUpTo p draw t).order_times.countP
                (fun o => decide ((o + p.L ≤ t) ∨ (o + p.L = t + 1))) :=
            List.countP_congr (by
              intro x hx
              simp only [decide_eq_true_eq]
              omega)
          have hsplit : (simUpTo p draw t).order_times.countP
              (fun o => decide ((o + p.L ≤ t) ∨ (o + p.L = t + 1))) =
              (simUpTo p draw t).order_times.countP (fun o => decide (o + p.L ≤ t)) +
              (simUpTo p draw t).order_times.countP (fun o => decide (o + p.L = t + 1)) :=
            countP_or_split (by
              intro a ha
              rintro ⟨h1, h2⟩
              omega)
          have eone := countP_addL_eq_one ihD ho₀ he
          rw [hcongr, hsplit, eone, if_pos (by omega : p.L ≤ t + 1), if_pos hLle]
          omega
      · rw [if_neg hA]
        have hne : ¬(p.L = t + 1 ∨
            ∃ o ∈ (simUpTo p draw t).order_times, o + p.L = t + 1) :=
          fun hcon => hA (hchar.mpr hcon)
        push_neg at hne
        have ec : (simUpTo p draw t).order_times.countP
            (fun o => decide (o + p.L ≤ t + 1)) =
            (simUpTo p draw t).order_times.countP (fun o => decide (o + p.L ≤ t)) :=
          List.countP_congr (by
            intro x hx
            have := hne.2 x hx
            simp only [decide_eq_true_eq]
            omega)
        have hiff : (p.L ≤ t) ↔ (p.L ≤ t + 1) := by
          have := hne.1
          omega
        rw [ec, if_congr hiff rfl rfl]
        omega
    · rcases hcases with ⟨hO, hP⟩ | ⟨hO, hP⟩
      · rw [hP, hP1, hO]
      · rw [hP, hP1, hO, List.filter_append]
        have hsing : List.filter (fun o => decide (t + 1 < o + p.L)) [t + 1] = [t + 1] := by
          have : t + 1 < t + 1 + p.L := by omega
          simp [this]
        rw [hsing, List.map_append, List.append_assoc]
        rfl
    · rcases hcases with ⟨hO, _⟩ | ⟨hO, _⟩
      · rw [hO]
        intro o ho
        obtain ⟨h1, h2⟩ := ihC o ho
        exact ⟨h1, by omega⟩
      · rw [hO]
        intro o ho
        rcases List.mem_append.mp ho with ho | ho
        · obtain ⟨h1, h2⟩ := ihC o ho
          exact ⟨h1, by omega⟩
        · have heq : o = t + 1 := by simpa using ho
          rw [heq]
          exact ⟨by omega, le_refl _⟩
    · rcases hcases with ⟨hO, _⟩ | ⟨hO, _⟩
      · rw [hO]
        exact ihD
      · rw [hO, List.nodup_append]
        refine ⟨ihD, List.nodup_singleton _, ?_⟩
        intro a ha hb
        obtain ⟨_, h2⟩ := ihC a ha
        have heq : a = t + 1 := by simpa using hb
        omega

/-- C7 (amended): for a steady-start run with `L >= 1`, zero demand
variability, a nonnegative reorder point, and demand never exceeding supply
(no clamping occurs), on-hand never goes negative; and the number of recorded
arrival days equals the number of recorded order days `t` with `t + L <= T`
PLUS one extra arrival — delivered by the initial steady-mode shipment —
whenever `L <= T`.  (The claim as frozen omits the initial-shipment arrival;
see the counterexample.) -/
theorem sim_conservation_correct (p : SimParams) (draw : ℕ → ℚ)
    (hm : p.start_mode = StartMode.steady) (hL : 1 ≤ p.L)
    (hsigma : p.sigma_d_dia = 0) (hr : 0 ≤ p.r)
    (hnc : NoClampHolds p draw) :
    (∀ x ∈ (sim_serrilhado_com_leadtime p draw).y_onhand, 0 ≤ x) ∧
    (sim_serrilhado_com_leadtime p draw).arrival_times.length =
      (if p.L ≤ p.T then 1 else 0) +
      ((sim_serrilhado_com_leadtime p draw).order_times.filter fun o =>
        decide (o + p.L ≤ p.T)).length := by
  constructor
  · rw [sim_serrilhado_com_leadtime]
    have key : ∀ t, t ≤ p.T → ∀ x ∈ (simUpTo p draw t).y_onhand, 0 ≤ x := by
      intro t
      induction t with
      | zero =>
        intro _ x hx
        have h0 : (simUpTo p draw 0).y_onhand = [p.r] := by
          simp [simUpTo, initState, hm]
        rw [h0] at hx
        have hx' : x = p.r := List.mem_singleton.mp hx
        rw [hx']
        exact hr
      | succ t ih =>
        intro hle x hx
        rw [simUpTo, simStep_y_onhand] at hx
        rcases List.mem_append.mp hx with hx | hx
        · exact ih (by omega) x hx
        · have hx' : x = (simStep p draw (simUpTo p draw t) (t + 1)).on_hand :=
            List.mem_singleton.mp hx
          have hoh : 0 ≤ (simStep p draw (simUpTo p draw t) (t + 1)).on_hand := by
            rw [simStep_on_hand]
            have hpa : (simUpTo p draw t).on_hand +
                arrivedSum (simUpTo p draw t).pending (t + 1) =
                postArrivalOnHand p draw (t + 1) :=
              (postArrivalOnHand_succ p draw t).symm
            have hd : demandAt p draw (t + 1) ≤ postArrivalOnHand p draw (t + 1) :=
              hnc (t + 1) (Finset.mem_Icc.mpr ⟨by omega, by omega⟩)
            split
            · exact le_refl 0
            · rw [hpa]
              linarith
          rw [hx']
          exact hoh
    exact key p.T (le_refl _)
  · rw [sim_serrilhado_com_leadtime]
    have hinv := (steady_run_invariant p draw hm hL p.T).1
    rw [hinv, List.countP_eq_length_filter]

/-- C7 counterexample: the concrete steady run `pRun1` satisfies every
hypothesis of the claim (zero demand variability, steady start, clamping
never fires: zero stockout days and demand at most post-arrival on-hand on
every day), yet it records 1 arrival day while recording 0 order days `t`
with `t + L <= T` — the initial steady-mode shipment arrives without any
recorded order, refuting the claimed equality. -/
theorem sim_conservation_counterexample :
    NoClampHolds pRun1 drawZero ∧
    pRun1.sigma_d_dia = 0 ∧
    pRun1.start_mode = StartMode.steady ∧
    (sim_serrilhado_com_leadtime pRun1 drawZero).stockout_days = 0 ∧
    (sim_serrilhado_com_leadtime pRun1 drawZero).arrival_times.length = 1 ∧
    ((sim_serrilhado_com_leadtime pRun1 drawZero).order_times.filter fun o =>
      decide (o + pRun1.L ≤ pRun1.T)).length = 0 := by
  refine ⟨?_, rfl, rfl, ?_, ?_, ?_⟩
  · rw [NoClampHolds]
    intro t ht
    have hT : pRun1.T = 3 := rfl
    rw [hT] at ht
    fin_cases ht <;>
      norm_num [demandAt, postArrivalOnHand, pRun1, drawZero, simUpTo, simStep,
        initState, arrivedSum, stepArrivals, stepConsume, stepReorder]
  · norm_num [sim_serrilhado_com_leadtime, pRun1, drawZero, simUpTo, simStep,
      initState, demandAt, arrivedSum, stepArrivals, stepConsume, stepReorder]
  · norm_num [sim_serrilhado_com_leadtime, pRun1, drawZero, simUpTo, simStep,
      initState, demandAt, arrivedSum, stepArrivals, stepConsume, stepReorder]
  · norm_num [sim_serrilhado_com_leadtime, pRun1, drawZero, simUpTo, simStep,
      initState, demandAt, arrivedSum, stepArrivals, stepConsume, stepReorder]

/-- Witness for C7 (amended) at the concrete steady run `pRun1`. -/
theorem sim_conservation_correct_witness :
    (∀ x ∈ (sim_serrilhado_com_leadtime pRun1 drawZero).y_onhand, 0 ≤ x) ∧
    (sim_serrilhado_com_leadtime pRun1 drawZero).arrival_times.length =
      (if pRun1.L ≤ pRun1.T then 1 else 0) +
      ((sim_serrilhado_com_leadtime pRun1 drawZero).order_times.filter fun o =>
        decide (o + pRun1.L ≤ pRun1.T)).length :=
  sim_conservation_correct pRun1 drawZero rfl (by norm_num [pRun1]) rfl
    (by norm_num [pRun1])
    (by
      rw [NoClampHolds]
      intro t ht
      have hT : pRun1.T = 3 := rfl
      rw [hT] at ht
      fin_cases ht <;>
        norm_num [demandAt, postArrivalOnHand, pRun1, drawZero, simUpTo, simStep,
          initState, arrivedSum, stepArrivals, stepConsume, stepReorder])
